import Mathlib

/-!
Shallow embedding of `contracts/BallotGuard.sol` (Solidity, FHEVM).

Modelling choices:
* `uint256`/`uint64` values and addresses are `Nat`; `euint32` ciphertext
  handles are represented by their 32-bit plaintexts (`Nat`, kept `< 2^32`
  by the homomorphic add, which wraps modulo `2^32` like `FHE.add` on
  `euint32`).  `bytes` values are `List Nat` (one `Nat` per byte).
* The contract's `mapping(uint256 => Poll) polls` together with the
  sequential allocator `pollCount` (ids `0, 1, ...`, `pollId = pollCount`
  at creation) is represented as an append-only `List Poll`; reading an
  id that was never written yields the all-default `Poll`, exactly as a
  Solidity mapping does, via `List.getD` with default `emptyPoll`.  The
  public getter `pollCount` is the list length.
* `mapping(uint256 => mapping(address => bool)) pollVotes` is the list of
  pairs that were set to `true` (they are never unset).
* A Solidity `revert` rolls back every write of the call, so each
  operation is a total function returning `Except`: on `.error` the state
  is unchanged (`applyOp` keeps the pre-state).
* `FHE.fromExternal` validates and yields a 32-bit ciphertext: the vote's
  plaintext choice is `choicePlain % 2^32`.  `FHE.eq/select/add` act on
  plaintexts; `FHE.allowThis` / `FHE.makePubliclyDecryptable` are ACL
  operations with no effect on values.  `FHE.checkSignatures` is an
  external verifier whose verdict is supplied by the environment as the
  Boolean `sigOk`; when it rejects, the whole call reverts.
-/

deriving instance DecidableEq for Except

namespace BallotGuard

/-- The modulus `2^32` of `euint32` arithmetic; `type(uint32).max = UINT32_LIMIT - 1`. -/
def UINT32_LIMIT : Nat := 4294967296

/-- The `Poll` struct of the contract. -/
structure Poll where
  title : String
  description : String
  options : List String
  startTime : Nat
  endTime : Nat
  finalized : Bool
  resultsSubmitted : Bool
  creator : Nat
  encryptedCounts : List Nat
  decryptedCounts : List Nat
  encodedClearResults : List Nat
  decryptionProof : List Nat
  deriving DecidableEq

/-- The all-default `Poll`, what a Solidity mapping returns for a never-written key. -/
def emptyPoll : Poll :=
  { title := "", description := "", options := [], startTime := 0, endTime := 0,
    finalized := false, resultsSubmitted := false, creator := 0,
    encryptedCounts := [], decryptedCounts := [], encodedClearResults := [],
    decryptionProof := [] }

/-- The contract's custom errors.  `ExternalCheckFailed` stands for the revert
raised inside the external `FHE.checkSignatures` when the proof is rejected. -/
inductive BallotError where
  | PollNotFound (pollId : Nat)
  | InvalidOptionCount
  | EmptyOption
  | EmptyTitle
  | InvalidSchedule
  | VotingNotStarted (pollId : Nat)
  | VotingFinished (pollId : Nat)
  | AlreadyVoted (pollId : Nat) (voter : Nat)
  | PollStillRunning (pollId : Nat)
  | PollAlreadyFinalized (pollId : Nat)
  | ResultsAlreadySubmitted (pollId : Nat)
  | PollNotFinalized (pollId : Nat)
  | InvalidResultsLength (pollId : Nat)
  | CountExceedsLimit (pollId : Nat) (index : Nat)
  | ExternalCheckFailed (pollId : Nat)
  deriving DecidableEq

/-- Contract storage plus the host-supplied clock (`block.timestamp`). -/
structure ContractState where
  polls : List Poll
  pollVotes : List (Nat × Nat)
  now : Nat
  deriving DecidableEq

/-- State right after deployment (the constructor writes nothing), at clock `n0`. -/
def initState (n0 : Nat) : ContractState :=
  { polls := [], pollVotes := [], now := n0 }

/-- The public `pollCount` getter: ids are allocated sequentially from 0. -/
def pollCount (s : ContractState) : Nat := s.polls.length

/-- Read `polls[pollId]`: mapping read, default struct for never-created ids. -/
def pollAt (s : ContractState) (pollId : Nat) : Poll := s.polls.getD pollId emptyPoll

/-- Write back `polls[pollId]` (only used at existing ids). -/
def setPoll (s : ContractState) (pollId : Nat) (p : Poll) : ContractState :=
  { s with polls := s.polls.set pollId p }

/-- Getter `hasVoted(pollId, account)`: read of `pollVotes[pollId][account]`. -/
def hasVoted (s : ContractState) (pollId voter : Nat) : Bool :=
  decide ((pollId, voter) ∈ s.pollVotes)

/-- The freshly stored `Poll` record of a successful `createPoll`:
`poll.encryptedCounts.push()` pushes the default (zero) ciphertext handle,
i.e. an encrypted 0, hence `List.replicate _ 0`. -/
def newPollOf (caller : Nat) (title description : String) (options : List String)
    (startTime endTime : Nat) : Poll :=
  { title := title, description := description, options := options,
    startTime := startTime, endTime := endTime, finalized := false,
    resultsSubmitted := false, creator := caller,
    encryptedCounts := List.replicate options.length 0,
    decryptedCounts := [], encodedClearResults := [], decryptionProof := [] }

/-- Operation `createPoll`.  The contract allocates `pollId = pollCount`, writes the
fields, then validates each option inside the copy loop; a revert there
discards all writes, so the committed effect equals validating every option
before appending the poll. -/
def createPoll (s : ContractState) (caller : Nat) (title description : String)
    (options : List String) (startTime endTime : Nat) :
    Except BallotError (ContractState × Nat) :=
  if title = "" then .error .EmptyTitle
  else if options.length < 2 ∨ 4 < options.length then .error .InvalidOptionCount
  else if endTime ≤ startTime ∨ endTime ≤ s.now then .error .InvalidSchedule
  else if options.any (fun o => o == "") then .error .EmptyOption
  else
    .ok ({ s with
            polls := s.polls ++ [newPollOf caller title description options startTime endTime] },
      s.polls.length)

/-- The tally loop of `submitVote`: for each option index `i` (starting at `k`),
`encryptedCounts[i] = FHE.add(encryptedCounts[i], FHE.select(FHE.eq(choice, i), 1, 0))`,
with `euint32` addition wrapping modulo `2^32`.  The loop bound in the source is
`poll.options.length`, equal to `encryptedCounts.length` for every created poll. -/
def bumpTallies : List Nat → Nat → Nat → List Nat
  | [], _, _ => []
  | c :: rest, choice, k =>
      (c + (if choice = k then 1 else 0)) % UINT32_LIMIT :: bumpTallies rest choice (k + 1)

/-- Operation `submitVote(pollId, encryptedChoice, inputProof)`; `choicePlain` is the
32-bit plaintext carried by the validated external ciphertext. -/
def submitVote (s : ContractState) (pollId voter choicePlain : Nat) :
    Except BallotError ContractState :=
  if (pollAt s pollId).options.length = 0 then .error (.PollNotFound pollId)
  else if s.now < (pollAt s pollId).startTime then .error (.VotingNotStarted pollId)
  else if (pollAt s pollId).endTime < s.now then .error (.VotingFinished pollId)
  else if hasVoted s pollId voter then .error (.AlreadyVoted pollId voter)
  else
    .ok (setPoll { s with pollVotes := s.pollVotes ++ [(pollId, voter)] } pollId
      { pollAt s pollId with
        encryptedCounts :=
          bumpTallies (pollAt s pollId).encryptedCounts (choicePlain % UINT32_LIMIT) 0 })

/-- Operation `finalizePoll(pollId)`.  `FHE.makePubliclyDecryptable` is an ACL grant with
no effect on stored values. -/
def finalizePoll (s : ContractState) (pollId : Nat) : Except BallotError ContractState :=
  if (pollAt s pollId).options.length = 0 then .error (.PollNotFound pollId)
  else if s.now ≤ (pollAt s pollId).endTime then .error (.PollStillRunning pollId)
  else if (pollAt s pollId).finalized then .error (.PollAlreadyFinalized pollId)
  else .ok (setPoll s pollId { pollAt s pollId with finalized := true })

/-- One 32-byte word read by `mload`: big-endian unsigned integer. -/
def beWord (chunk : List Nat) : Nat := chunk.foldl (fun acc b => acc * 256 + b) 0

/-- Body of `_decodeClearValues` after the length guard: word `i` is the 32 bytes
at offset `32*i`, read big-endian. -/
def decodeClearValues (encoded : List Nat) (expectedLength : Nat) : List Nat :=
  (List.range expectedLength).map (fun i => beWord ((encoded.drop (32 * i)).take 32))

/-- Index of the first decoded value with `value > type(uint32).max`, i.e. the
index at which the store loop of `submitDecryptedResults` reverts. -/
def firstExceeding : List Nat → Nat → Option Nat
  | [], _ => none
  | v :: rest, k => if UINT32_LIMIT ≤ v then some k else firstExceeding rest (k + 1)

/-- Operation `submitDecryptedResults(pollId, encodedCounts, decryptionProof)`.
`sigOk` is the verdict of the external `FHE.checkSignatures`; the length guard
and decode loop live in `_decodeClearValues`; `uint32(decodedCounts[i])` is the
identity once the `CountExceedsLimit` check passed. -/
def submitDecryptedResults (s : ContractState) (pollId : Nat)
    (encodedCounts proofBytes : List Nat) (sigOk : Bool) :
    Except BallotError ContractState :=
  if (pollAt s pollId).options.length = 0 then .error (.PollNotFound pollId)
  else if (pollAt s pollId).finalized = false then .error (.PollNotFinalized pollId)
  else if (pollAt s pollId).resultsSubmitted then .error (.ResultsAlreadySubmitted pollId)
  else if sigOk = false then .error (.ExternalCheckFailed pollId)
  else if encodedCounts.length ≠ (pollAt s pollId).encryptedCounts.length * 32 then
    .error (.InvalidResultsLength pollId)
  else
    match firstExceeding (decodeClearValues encodedCounts
        (pollAt s pollId).encryptedCounts.length) 0 with
    | some i => .error (.CountExceedsLimit pollId i)
    | none =>
        .ok (setPoll s pollId
          { pollAt s pollId with
            decryptedCounts :=
              decodeClearValues encodedCounts (pollAt s pollId).encryptedCounts.length
            encodedClearResults := encodedCounts
            decryptionProof := proofBytes
            resultsSubmitted := true })

/-- Getter `getPoll(pollId)`: pure read returning the metadata tuple. -/
def getPoll (s : ContractState) (pollId : Nat) :
    Except BallotError (String × String × List String × Nat × Nat × Bool × Bool × Nat) :=
  if (pollAt s pollId).options.length = 0 then .error (.PollNotFound pollId)
  else .ok ((pollAt s pollId).title, (pollAt s pollId).description,
    (pollAt s pollId).options, (pollAt s pollId).startTime, (pollAt s pollId).endTime,
    (pollAt s pollId).finalized, (pollAt s pollId).resultsSubmitted,
    (pollAt s pollId).creator)

/-- External calls into the contract, plus the host clock advancing
(`block.timestamp` is non-decreasing across transactions). -/
inductive Op where
  | create (caller : Nat) (title description : String) (options : List String)
      (startTime endTime : Nat)
  | vote (pollId voter choicePlain : Nat)
  | finalize (pollId : Nat)
  | publish (pollId : Nat) (encodedCounts proofBytes : List Nat) (sigOk : Bool)
  | advance (dt : Nat)
  deriving DecidableEq

/-- Effect of one transaction: a reverted call leaves the state unchanged. -/
def applyOp (s : ContractState) (op : Op) : ContractState :=
  match op with
  | .create c t d o st et =>
      match createPoll s c t d o st et with
      | .ok r => r.1
      | .error _ => s
  | .vote pid v c =>
      match submitVote s pid v c with
      | .ok s' => s'
      | .error _ => s
  | .finalize pid =>
      match finalizePoll s pid with
      | .ok s' => s'
      | .error _ => s
  | .publish pid e pr ok =>
      match submitDecryptedResults s pid e pr ok with
      | .ok s' => s'
      | .error _ => s
  | .advance dt => { s with now := s.now + dt }

/-- Run a sequence of transactions. -/
def execTrace (s : ContractState) : List Op → ContractState
  | [] => s
  | op :: rest => execTrace (applyOp s op) rest

/-- States the deployed contract can actually be in. -/
def Reachable (s : ContractState) : Prop :=
  ∃ n0 ops, execTrace (initState n0) ops = s

/-- Well-formedness of a stored poll, relative to the current clock. -/
def WellFormedPoll (p : Poll) (now : Nat) : Prop :=
  2 ≤ p.options.length ∧ p.options.length ≤ 4 ∧
  p.encryptedCounts.length = p.options.length ∧
  p.startTime < p.endTime ∧
  (p.finalized = true → p.endTime < now) ∧
  (∀ c ∈ p.encryptedCounts, c < UINT32_LIMIT)

/-- The state invariant maintained by every transaction. -/
def Inv (s : ContractState) : Prop :=
  (∀ p ∈ s.polls, WellFormedPoll p s.now) ∧
  (∀ pv ∈ s.pollVotes, pv.1 < s.polls.length ∧ (pollAt s pv.1).startTime ≤ s.now)

/-- Whether a call committed (did not revert). -/
def isOk : Except BallotError ContractState → Bool
  | .ok _ => true
  | .error _ => false

/-- The plaintext held by `encryptedCounts[i]` of poll `pid` (0 for absent entries). -/
def tallyAt (s : ContractState) (pid i : Nat) : Nat :=
  (pollAt s pid).encryptedCounts.getD i 0

/-- Equals 1 when `op` is a `submitVote` transaction for poll `pid` that succeeds in
state `s` and whose 32-bit plaintext choice is `i`, else 0. -/
def voteContrib (s : ContractState) (op : Op) (pid i : Nat) : Nat :=
  match op with
  | .vote p v c =>
      if p = pid ∧ isOk (submitVote s p v c) = true ∧ c % UINT32_LIMIT = i then 1 else 0
  | _ => 0

/-- Number of successful `submitVote` transactions in the trace for poll `pid`
whose plaintext choice is `i`. -/
def votesFor (pid i : Nat) : ContractState → List Op → Nat
  | _, [] => 0
  | s, op :: rest => voteContrib s op pid i + votesFor pid i (applyOp s op) rest

/-- Number of successful `submitVote` transactions in the trace for poll `pid`
whose plaintext choice is a valid option index. -/
def countInRange (pid : Nat) : ContractState → List Op → Nat
  | _, [] => 0
  | s, op :: rest =>
      (match op with
       | .vote p v c =>
           if p = pid ∧ isOk (submitVote s p v c) = true ∧
              c % UINT32_LIMIT < (pollAt s p).options.length then 1 else 0
       | _ => 0) + countInRange pid (applyOp s op) rest

/-- Number of successful `submitVote` transactions in the trace for poll `pid`
(each distinct voter contributes at most one). -/
def countVotes (pid : Nat) : ContractState → List Op → Nat
  | _, [] => 0
  | s, op :: rest =>
      (match op with
       | .vote p v c => if p = pid ∧ isOk (submitVote s p v c) = true then 1 else 0
       | _ => 0) + countVotes pid (applyOp s op) rest

/-! Concrete transaction sequences used to instantiate the theorems. -/

/-- Create a two-option poll with voting window `[10, 20]`. -/
def opsCreated : List Op :=
  [.create 7 "Election" "An example poll" ["Alpha", "Beta"] 10 20]

/-- Extends `opsCreated`: the clock moves to 10 and voter 5 casts choice 0. -/
def opsVoted : List Op :=
  opsCreated ++ [.advance 10, .vote 0 5 0]

/-- Extends `opsVoted`: the clock moves to 21 (past `endTime`) and the poll is finalized. -/
def opsFinal : List Op :=
  opsVoted ++ [.advance 11, .finalize 0]

/-- Exactly 64 bytes encoding the big-endian words `[1, 0]`, the true plaintext
tallies after the single vote for option 0. -/
def encOneZero : List Nat :=
  List.replicate 31 0 ++ [1] ++ List.replicate 32 0

/-- Extends `opsFinal`: the (correct) decryption `[1, 0]` is published. -/
def opsPub : List Op :=
  opsFinal ++ [.publish 0 encOneZero [9] true]

/-- Extends `opsVoted`: the clock moves past `endTime` right after the vote. -/
def opsLate : List Op :=
  opsVoted ++ [.advance 11]

/-- Exactly 64 bytes encoding the big-endian words `[0, 0]`. -/
def encZeroZero : List Nat := List.replicate 64 0

/-- A full cycle in which voter 5 submits the out-of-range encrypted choice 5
on a two-option poll, then the poll is finalized and the (correct) decryption
`[0, 0]` is published. -/
def opsBadVote : List Op :=
  opsCreated ++ [.advance 10, .vote 0 5 5, .advance 11, .finalize 0,
    .publish 0 encZeroZero [9] true]

/-! ### Basic facts about the storage model -/

theorem pollAt_of_le {s : ContractState} {pid : Nat} (h : s.polls.length ≤ pid) :
    pollAt s pid = emptyPoll := by
  simp [pollAt, List.getElem?_eq_none h]

theorem lt_length_of_options_ne {s : ContractState} {pid : Nat}
    (h : (pollAt s pid).options.length ≠ 0) : pid < s.polls.length := by
  by_contra h'
  rw [pollAt_of_le (Nat.le_of_not_lt h')] at h
  simp [emptyPoll] at h

theorem pollAt_mem {s : ContractState} {pid : Nat} (h : pid < s.polls.length) :
    pollAt s pid ∈ s.polls := by
  rw [pollAt, List.getD_eq_getElem?_getD, List.getElem?_eq_getElem h]
  exact List.getElem_mem h

theorem pollAt_setPoll_self {s : ContractState} {pid : Nat} (p : Poll)
    (h : pid < s.polls.length) : pollAt (setPoll s pid p) pid = p := by
  simp [pollAt, setPoll, List.getElem?_set_self h]

theorem pollAt_setPoll_ne {s : ContractState} {pid : Nat} (p : Poll) (q : Nat) (h : pid ≠ q) :
    pollAt (setPoll s pid p) q = pollAt s q := by
  simp [pollAt, setPoll, List.getElem?_set_ne h]

theorem pollAt_append_lt {s : ContractState} {pid : Nat} (p : Poll)
    (h : pid < s.polls.length) :
    pollAt { s with polls := s.polls ++ [p] } pid = pollAt s pid := by
  simp [pollAt, List.getElem?_append_left h]

theorem pollAt_append_self (s : ContractState) (p : Poll) :
    pollAt { s with polls := s.polls ++ [p] } s.polls.length = p := by
  simp [pollAt, List.getElem?_concat_length]

theorem pollAt_append_gt {s : ContractState} {pid : Nat} (p : Poll)
    (h : s.polls.length < pid) :
    pollAt { s with polls := s.polls ++ [p] } pid = emptyPoll := by
  apply pollAt_of_le
  simpa using h

/-! ### Facts about the tally update loop -/

theorem bumpTallies_length (l : List Nat) (choice k : Nat) :
    (bumpTallies l choice k).length = l.length := by
  induction l generalizing k with
  | nil => rfl
  | cons x xs ih => simp [bumpTallies, ih]

theorem bumpTallies_getD (l : List Nat) (choice k i : Nat) (h : i < l.length) :
    (bumpTallies l choice k).getD i 0 =
      (l.getD i 0 + if choice = k + i then 1 else 0) % UINT32_LIMIT := by
  induction l generalizing k i with
  | nil => simp at h
  | cons x xs ih =>
    cases i with
    | zero => simp [bumpTallies]
    | succ n =>
      have hn : n < xs.length := by simpa using h
      have hkn : k + 1 + n = k + (n + 1) := by omega
      simp only [bumpTallies, List.getD_cons_succ, ih _ _ hn, hkn]

theorem bumpTallies_mem_lt {l : List Nat} {choice k : Nat} {c : Nat}
    (h : c ∈ bumpTallies l choice k) : c < UINT32_LIMIT := by
  induction l generalizing k with
  | nil => simp [bumpTallies] at h
  | cons x xs ih =>
    simp only [bumpTallies, List.mem_cons] at h
    rcases h with h | h
    · rw [h]
      exact Nat.mod_lt _ (by simp [UINT32_LIMIT])
    · exact ih h

/-! ### Inversion lemmas: what a successful call tells us -/

theorem createPoll_ok {s : ContractState} {caller : Nat} {title description : String}
    {options : List String} {startTime endTime : Nat} {r : ContractState × Nat}
    (h : createPoll s caller title description options startTime endTime = .ok r) :
    ¬title = "" ∧ 2 ≤ options.length ∧ options.length ≤ 4 ∧
    startTime < endTime ∧ s.now < endTime ∧ (∀ o ∈ options, ¬o = "") ∧
    r = ({ s with
            polls := s.polls ++ [newPollOf caller title description options startTime endTime] },
      s.polls.length) := by
  by_cases h1 : title = ""
  · simp [createPoll, h1] at h
  by_cases h2 : options.length < 2 ∨ 4 < options.length
  · simp [createPoll, h1, h2] at h
  by_cases h3 : endTime ≤ startTime ∨ endTime ≤ s.now
  · simp [createPoll, h1, h2, h3] at h
  by_cases h4 : options.any (fun o => o == "") = true
  · simp [createPoll, h1, h2, h3, h4] at h
  unfold createPoll at h
  rw [if_neg h1, if_neg h2, if_neg h3, if_neg h4] at h
  injection h with hr
  refine ⟨h1, by omega, by omega, by omega, by omega, ?_, hr.symm⟩
  intro o ho he
  simp only [List.any_eq_true, beq_iff_eq] at h4
  exact h4 ⟨o, ho, he⟩

theorem submitVote_ok {s : ContractState} {pid v c : Nat} {s' : ContractState}
    (h : submitVote s pid v c = .ok s') :
    (pollAt s pid).options.length ≠ 0 ∧
    (pollAt s pid).startTime ≤ s.now ∧ s.now ≤ (pollAt s pid).endTime ∧
    hasVoted s pid v = false ∧
    s' = setPoll { s with pollVotes := s.pollVotes ++ [(pid, v)] } pid
      { pollAt s pid with
        encryptedCounts := bumpTallies (pollAt s pid).encryptedCounts (c % UINT32_LIMIT) 0 } := by
  by_cases h1 : (pollAt s pid).options.length = 0
  · simp [submitVote, h1] at h
  by_cases h2 : s.now < (pollAt s pid).startTime
  · simp [submitVote, h1, h2] at h
  by_cases h3 : (pollAt s pid).endTime < s.now
  · simp [submitVote, h1, h2, h3] at h
  by_cases h4 : hasVoted s pid v = true
  · simp [submitVote, h1, h2, h3, h4] at h
  unfold submitVote at h
  rw [if_neg h1, if_neg h2, if_neg h3, if_neg h4] at h
  injection h with hs
  exact ⟨h1, by omega, by omega, by simpa using h4, hs.symm⟩

theorem finalizePoll_ok {s : ContractState} {pid : Nat} {s' : ContractState}
    (h : finalizePoll s pid = .ok s') :
    (pollAt s pid).options.length ≠ 0 ∧ (pollAt s pid).endTime < s.now ∧
    (pollAt s pid).finalized = false ∧
    s' = setPoll s pid { pollAt s pid with finalized := true } := by
  by_cases h1 : (pollAt s pid).options.length = 0
  · simp [finalizePoll, h1] at h
  by_cases h2 : s.now ≤ (pollAt s pid).endTime
  · simp [finalizePoll, h1, h2] at h
  by_cases h3 : (pollAt s pid).finalized = true
  · simp [finalizePoll, h1, h2, h3] at h
  unfold finalizePoll at h
  rw [if_neg h1, if_neg h2, if_neg h3] at h
  injection h with hs
  exact ⟨h1, by omega, by simpa using h3, hs.symm⟩

theorem submitDecryptedResults_ok {s : ContractState} {pid : Nat} {e pr : List Nat}
    {sigOk : Bool} {s' : ContractState}
    (h : submitDecryptedResults s pid e pr sigOk = .ok s') :
    (pollAt s pid).options.length ≠ 0 ∧ (pollAt s pid).finalized = true ∧
    (pollAt s pid).resultsSubmitted = false ∧ sigOk = true ∧
    e.length = (pollAt s pid).encryptedCounts.length * 32 ∧
    firstExceeding (decodeClearValues e (pollAt s pid).encryptedCounts.length) 0 = none ∧
    s' = setPoll s pid
      { pollAt s pid with
        decryptedCounts := decodeClearValues e (pollAt s pid).encryptedCounts.length
        encodedClearResults := e
        decryptionProof := pr
        resultsSubmitted := true } := by
  by_cases h1 : (pollAt s pid).options.length = 0
  · simp [submitDecryptedResults, h1] at h
  by_cases h2 : (pollAt s pid).finalized = false
  · simp [submitDecryptedResults, h1, h2] at h
  by_cases h3 : (pollAt s pid).resultsSubmitted = true
  · simp [submitDecryptedResults, h1, h2, h3] at h
  by_cases h4 : sigOk = false
  · simp [submitDecryptedResults, h1, h2, h3, h4] at h
  by_cases h5 : e.length ≠ (pollAt s pid).encryptedCounts.length * 32
  · simp [submitDecryptedResults, h1, h2, h3, h4, h5] at h
  cases hfe : firstExceeding (decodeClearValues e (pollAt s pid).encryptedCounts.length) 0 with
  | some i => simp [submitDecryptedResults, h1, h2, h3, h4, h5, hfe] at h
  | none =>
    unfold submitDecryptedResults at h
    rw [if_neg h1, if_neg h2, if_neg h3, if_neg h4, if_neg h5, hfe] at h
    injection h with hs
    refine ⟨h1, by simpa using h2, by simpa using h3, by simpa using h4,
      by omega, rfl, hs.symm⟩

/-! ### A reverted transaction leaves the state unchanged -/

theorem applyOp_create_error {s : ContractState} {caller : Nat} {t d : String}
    {o : List String} {st et : Nat} {e : BallotError}
    (h : createPoll s caller t d o st et = .error e) :
    applyOp s (.create caller t d o st et) = s := by
  simp [applyOp, h]

theorem applyOp_vote_error {s : ContractState} {pid v c : Nat} {e : BallotError}
    (h : submitVote s pid v c = .error e) : applyOp s (.vote pid v c) = s := by
  simp [applyOp, h]

theorem applyOp_finalize_error {s : ContractState} {pid : Nat} {e : BallotError}
    (h : finalizePoll s pid = .error e) : applyOp s (.finalize pid) = s := by
  simp [applyOp, h]

theorem applyOp_publish_error {s : ContractState} {pid : Nat} {enc pr : List Nat}
    {sg : Bool} {e : BallotError}
    (h : submitDecryptedResults s pid enc pr sg = .error e) :
    applyOp s (.publish pid enc pr sg) = s := by
  simp [applyOp, h]

/-! ### The invariant holds in every reachable state -/

theorem initState_inv (n0 : Nat) : Inv (initState n0) := by
  constructor <;> intro x hx <;> simp [initState] at hx

theorem Inv_applyOp {s : ContractState} (op : Op) (h : Inv s) : Inv (applyOp s op) := by
  cases op with
  | create caller t d o st et =>
    cases hc : createPoll s caller t d o st et with
    | error e => rw [applyOp_create_error hc]; exact h
    | ok r =>
      obtain ⟨-, hlen2, hlen4, hst, hnow, -, hr⟩ := createPoll_ok hc
      have happ : applyOp s (.create caller t d o st et) = r.1 := by simp [applyOp, hc]
      rw [happ, hr]
      constructor
      · intro p hp
        rcases List.mem_append.mp hp with hp | hp
        · exact h.1 p hp
        · have hp' : p = newPollOf caller t d o st et := by simpa using hp
          subst hp'
          refine ⟨by simpa [newPollOf] using hlen2, by simpa [newPollOf] using hlen4,
            by simp [newPollOf], by simpa [newPollOf] using hst, ?_, ?_⟩
          · intro hf
            simp [newPollOf] at hf
          · intro cnt hcnt
            have h0 : cnt = 0 := by
              have h0' := hcnt
              simp [newPollOf, List.mem_replicate] at h0'
              exact h0'.2
            simp [h0, UINT32_LIMIT]
      · intro pv hpv
        have hold := h.2 pv hpv
        refine ⟨by simp; omega, ?_⟩
        rw [show ({ s with
            polls := s.polls ++ [newPollOf caller t d o st et] } : ContractState) =
            { s with polls := s.polls ++ [newPollOf caller t d o st et] } from rfl]
        rw [pollAt_append_lt _ hold.1]
        exact hold.2
  | vote pid v c =>
    cases hv : submitVote s pid v c with
    | error e => rw [applyOp_vote_error hv]; exact h
    | ok s' =>
      obtain ⟨hex, hst, het, -, hs'⟩ := submitVote_ok hv
      have hlt : pid < s.polls.length := lt_length_of_options_ne hex
      have happ : applyOp s (.vote pid v c) = s' := by simp [applyOp, hv]
      rw [happ, hs']
      have hw := h.1 (pollAt s pid) (pollAt_mem hlt)
      constructor
      · intro p hp
        simp only [setPoll] at hp
        rcases List.mem_or_eq_of_mem_set hp with hp | hp
        · exact h.1 p hp
        · subst hp
          exact ⟨hw.1, hw.2.1, by simpa [bumpTallies_length] using hw.2.2.1,
            hw.2.2.2.1, hw.2.2.2.2.1, fun cnt hcnt => bumpTallies_mem_lt hcnt⟩
      · intro pv hpv
        simp only [setPoll] at hpv
        rcases List.mem_append.mp hpv with hpv | hpv
        · have hold := h.2 pv hpv
          refine ⟨by simpa [setPoll] using hold.1, ?_⟩
          by_cases hq : pid = pv.1
          · subst hq
            rw [pollAt_setPoll_self _ (by simpa using hlt)]
            exact hold.2
          · rw [pollAt_setPoll_ne _ _ hq]
            exact hold.2
        · have hpv' : pv = (pid, v) := by simpa using hpv
          subst hpv'
          refine ⟨by simpa [setPoll] using hlt, ?_⟩
          rw [pollAt_setPoll_self _ (by simpa using hlt)]
          exact hst
  | finalize pid =>
    cases hf : finalizePoll s pid with
    | error e => rw [applyOp_finalize_error hf]; exact h
    | ok s' =>
      obtain ⟨hex, het, -, hs'⟩ := finalizePoll_ok hf
      have hlt : pid < s.polls.length := lt_length_of_options_ne hex
      have happ : applyOp s (.finalize pid) = s' := by simp [applyOp, hf]
      rw [happ, hs']
      have hw := h.1 (pollAt s pid) (pollAt_mem hlt)
      constructor
      · intro p hp
        simp only [setPoll] at hp
        rcases List.mem_or_eq_of_mem_set hp with hp | hp
        · exact h.1 p hp
        · subst hp
          exact ⟨hw.1, hw.2.1, hw.2.2.1, hw.2.2.2.1, fun _ => het, hw.2.2.2.2.2⟩
      · intro pv hpv
        simp only [setPoll] at hpv
        have hold := h.2 pv hpv
        refine ⟨by simpa [setPoll] using hold.1, ?_⟩
        by_cases hq : pid = pv.1
        · subst hq
          rw [pollAt_setPoll_self _ hlt]
          exact hold.2
        · rw [pollAt_setPoll_ne _ _ hq]
          exact hold.2
  | publish pid enc pr sg =>
    cases hp : submitDecryptedResults s pid enc pr sg with
    | error e => rw [applyOp_publish_error hp]; exact h
    | ok s' =>
      obtain ⟨hex, hfin, -, -, -, -, hs'⟩ := submitDecryptedResults_ok hp
      have hlt : pid < s.polls.length := lt_length_of_options_ne hex
      have happ : applyOp s (.publish pid enc pr sg) = s' := by simp [applyOp, hp]
      rw [happ, hs']
      have hw := h.1 (pollAt s pid) (pollAt_mem hlt)
      constructor
      · intro p hmem
        simp only [setPoll] at hmem
        rcases List.mem_or_eq_of_mem_set hmem with hmem | hmem
        · exact h.1 p hmem
        · subst hmem
          exact ⟨hw.1, hw.2.1, hw.2.2.1, hw.2.2.2.1, fun _ => hw.2.2.2.2.1 hfin,
            hw.2.2.2.2.2⟩
      · intro pv hpv
        simp only [setPoll] at hpv
        have hold := h.2 pv hpv
        refine ⟨by simpa [setPoll] using hold.1, ?_⟩
        by_cases hq : pid = pv.1
        · subst hq
          rw [pollAt_setPoll_self _ hlt]
          exact hold.2
        · rw [pollAt_setPoll_ne _ _ hq]
          exact hold.2
  | advance dt =>
    constructor
    · intro p hp
      have hw := h.1 p (by simpa [applyOp] using hp)
      exact ⟨hw.1, hw.2.1, hw.2.2.1, hw.2.2.2.1,
        fun hf => by have := hw.2.2.2.2.1 hf; simp [applyOp]; omega,
        hw.2.2.2.2.2⟩
    · intro pv hpv
      have hold := h.2 pv (by simpa [applyOp] using hpv)
      refine ⟨by simpa [applyOp] using hold.1, ?_⟩
      show (pollAt s pv.1).startTime ≤ s.now + dt
      exact Nat.le_trans hold.2 (Nat.le_add_right _ _)

theorem Inv_execTrace {s : ContractState} (ops : List Op) (h : Inv s) :
    Inv (execTrace s ops) := by
  induction ops generalizing s with
  | nil => exact h
  | cons op rest ih => exact ih (Inv_applyOp op h)

theorem Reachable.inv {s : ContractState} (h : Reachable s) : Inv s := by
  obtain ⟨n0, ops, rfl⟩ := h
  exact Inv_execTrace ops (initState_inv n0)

theorem execTrace_append (s : ContractState) (ops1 ops2 : List Op) :
    execTrace s (ops1 ++ ops2) = execTrace (execTrace s ops1) ops2 := by
  induction ops1 generalizing s with
  | nil => rfl
  | cons o rest ih => exact ih (applyOp s o)

theorem Reachable.applyOp {s : ContractState} (h : Reachable s) (op : Op) :
    Reachable (BallotGuard.applyOp s op) := by
  obtain ⟨n0, ops, rfl⟩ := h
  exact ⟨n0, ops ++ [op], by rw [execTrace_append]; rfl⟩

theorem Reachable.execTrace {s : ContractState} (h : Reachable s) (ops : List Op) :
    Reachable (BallotGuard.execTrace s ops) := by
  induction ops generalizing s with
  | nil => exact h
  | cons op rest ih => exact ih (h.applyOp op)

/-! ### Shape of one transaction, and monotone facts along the trace -/

theorem getD_append_left {α : Type} {l l' : List α} {i : Nat} (h : i < l.length) (d : α) :
    (l ++ l').getD i d = l.getD i d := by
  simp [List.getElem?_append_left h]

theorem applyOp_shape (s : ContractState) (op : Op) :
    ((applyOp s op).polls = s.polls ∨
      (∃ p, (applyOp s op).polls = s.polls ++ [p]) ∨
      (∃ pid p, pid < s.polls.length ∧ (applyOp s op).polls = s.polls.set pid p ∧
        p.options = (pollAt s pid).options ∧
        p.startTime = (pollAt s pid).startTime ∧
        p.endTime = (pollAt s pid).endTime ∧
        p.encryptedCounts.length = (pollAt s pid).encryptedCounts.length ∧
        ((pollAt s pid).finalized = true → p.finalized = true))) ∧
    ((applyOp s op).pollVotes = s.pollVotes ∨
      ∃ pr, (applyOp s op).pollVotes = s.pollVotes ++ [pr]) ∧
    s.now ≤ (applyOp s op).now := by
  cases op with
  | create caller t d o st et =>
    cases hc : createPoll s caller t d o st et with
    | error e => rw [applyOp_create_error hc]; exact ⟨.inl rfl, .inl rfl, Nat.le_refl _⟩
    | ok r =>
      obtain ⟨-, -, -, -, -, -, hr⟩ := createPoll_ok hc
      have happ : applyOp s (.create caller t d o st et) = r.1 := by simp [applyOp, hc]
      rw [happ, hr]
      exact ⟨.inr (.inl ⟨_, rfl⟩), .inl rfl, Nat.le_refl _⟩
  | vote pid v c =>
    cases hv : submitVote s pid v c with
    | error e => rw [applyOp_vote_error hv]; exact ⟨.inl rfl, .inl rfl, Nat.le_refl _⟩
    | ok s' =>
      obtain ⟨hex, -, -, -, hs'⟩ := submitVote_ok hv
      have hlt : pid < s.polls.length := lt_length_of_options_ne hex
      have happ : applyOp s (.vote pid v c) = s' := by simp [applyOp, hv]
      rw [happ, hs']
      refine ⟨.inr (.inr ⟨pid, _, hlt, rfl, rfl, rfl, rfl, ?_, fun hf => hf⟩),
        .inr ⟨(pid, v), rfl⟩, Nat.le_refl _⟩
      simp [bumpTallies_length]
  | finalize pid =>
    cases hf : finalizePoll s pid with
    | error e => rw [applyOp_finalize_error hf]; exact ⟨.inl rfl, .inl rfl, Nat.le_refl _⟩
    | ok s' =>
      obtain ⟨hex, -, -, hs'⟩ := finalizePoll_ok hf
      have hlt : pid < s.polls.length := lt_length_of_options_ne hex
      have happ : applyOp s (.finalize pid) = s' := by simp [applyOp, hf]
      rw [happ, hs']
      exact ⟨.inr (.inr ⟨pid, _, hlt, rfl, rfl, rfl, rfl, rfl, fun _ => rfl⟩),
        .inl rfl, Nat.le_refl _⟩
  | publish pid enc pr sg =>
    cases hp : submitDecryptedResults s pid enc pr sg with
    | error e => rw [applyOp_publish_error hp]; exact ⟨.inl rfl, .inl rfl, Nat.le_refl _⟩
    | ok s' =>
      obtain ⟨hex, -, -, -, -, -, hs'⟩ := submitDecryptedResults_ok hp
      have hlt : pid < s.polls.length := lt_length_of_options_ne hex
      have happ : applyOp s (.publish pid enc pr sg) = s' := by simp [applyOp, hp]
      rw [happ, hs']
      exact ⟨.inr (.inr ⟨pid, _, hlt, rfl, rfl, rfl, rfl, rfl, fun hf => hf⟩),
        .inl rfl, Nat.le_refl _⟩
  | advance dt =>
    exact ⟨.inl rfl, .inl rfl, Nat.le_add_right _ _⟩

theorem length_applyOp_le (s : ContractState) (op : Op) :
    s.polls.length ≤ (applyOp s op).polls.length := by
  rcases (applyOp_shape s op).1 with h | ⟨p, h⟩ | ⟨pid, p, -, h, -⟩ <;> simp [h]

theorem now_applyOp_le (s : ContractState) (op : Op) : s.now ≤ (applyOp s op).now :=
  (applyOp_shape s op).2.2

theorem meta_applyOp (s : ContractState) (op : Op) (pid : Nat)
    (h : pid < s.polls.length) :
    (pollAt (applyOp s op) pid).options = (pollAt s pid).options ∧
    (pollAt (applyOp s op) pid).startTime = (pollAt s pid).startTime ∧
    (pollAt (applyOp s op) pid).endTime = (pollAt s pid).endTime ∧
    (pollAt (applyOp s op) pid).encryptedCounts.length =
      (pollAt s pid).encryptedCounts.length ∧
    ((pollAt s pid).finalized = true → (pollAt (applyOp s op) pid).finalized = true) := by
  rcases (applyOp_shape s op).1 with hp | ⟨p, hp⟩ | ⟨q, p, hq, hp, ho, hs, he, hl, hf⟩
  · rw [show pollAt (applyOp s op) pid = pollAt s pid from by simp [pollAt, hp]]
    exact ⟨rfl, rfl, rfl, rfl, fun hf => hf⟩
  · rw [show pollAt (applyOp s op) pid = pollAt s pid from by
      simp [pollAt, hp, List.getElem?_append_left h]]
    exact ⟨rfl, rfl, rfl, rfl, fun hf => hf⟩
  · by_cases hqp : q = pid
    · subst hqp
      rw [show pollAt (applyOp s op) q = p from by
        simp [pollAt, hp, List.getElem?_set_self hq]]
      exact ⟨ho, hs, he, hl, hf⟩
    · rw [show pollAt (applyOp s op) pid = pollAt s pid from by
        simp [pollAt, hp, List.getElem?_set_ne hqp]]
      exact ⟨rfl, rfl, rfl, rfl, fun hf => hf⟩

theorem length_execTrace_le (s : ContractState) (ops : List Op) :
    s.polls.length ≤ (execTrace s ops).polls.length := by
  induction ops generalizing s with
  | nil => exact Nat.le_refl _
  | cons op rest ih => exact Nat.le_trans (length_applyOp_le s op) (ih (applyOp s op))

theorem now_execTrace_le (s : ContractState) (ops : List Op) :
    s.now ≤ (execTrace s ops).now := by
  induction ops generalizing s with
  | nil => exact Nat.le_refl _
  | cons op rest ih => exact Nat.le_trans (now_applyOp_le s op) (ih (applyOp s op))

theorem meta_execTrace (s : ContractState) (ops : List Op) (pid : Nat)
    (h : pid < s.polls.length) :
    (pollAt (execTrace s ops) pid).options = (pollAt s pid).options ∧
    (pollAt (execTrace s ops) pid).startTime = (pollAt s pid).startTime ∧
    (pollAt (execTrace s ops) pid).endTime = (pollAt s pid).endTime ∧
    (pollAt (execTrace s ops) pid).encryptedCounts.length =
      (pollAt s pid).encryptedCounts.length ∧
    ((pollAt s pid).finalized = true →
      (pollAt (execTrace s ops) pid).finalized = true) := by
  induction ops generalizing s with
  | nil => exact ⟨rfl, rfl, rfl, rfl, fun hf => hf⟩
  | cons op rest ih =>
    have h1 := meta_applyOp s op pid h
    have h2 := ih (applyOp s op) (Nat.lt_of_lt_of_le h (length_applyOp_le s op))
    exact ⟨h2.1.trans h1.1, h2.2.1.trans h1.2.1, h2.2.2.1.trans h1.2.2.1,
      h2.2.2.2.1.trans h1.2.2.2.1, fun hf => h2.2.2.2.2 (h1.2.2.2.2 hf)⟩

theorem hasVoted_applyOp (s : ContractState) (op : Op) (pid v : Nat)
    (h : hasVoted s pid v = true) : hasVoted (applyOp s op) pid v = true := by
  rcases (applyOp_shape s op).2.1 with hv | ⟨pr, hv⟩ <;>
    simp only [hasVoted, hv, decide_eq_true_eq] at h ⊢
  · exact h
  · exact List.mem_append.mpr (.inl h)

theorem hasVoted_execTrace (s : ContractState) (ops : List Op) (pid v : Nat)
    (h : hasVoted s pid v = true) : hasVoted (execTrace s ops) pid v = true := by
  induction ops generalizing s with
  | nil => exact h
  | cons op rest ih => exact ih (applyOp s op) (hasVoted_applyOp s op pid v h)

theorem lt_length_of_finalized {s : ContractState} {pid : Nat}
    (h : (pollAt s pid).finalized = true) : pid < s.polls.length := by
  by_contra h'
  rw [pollAt_of_le (Nat.le_of_not_lt h')] at h
  simp [emptyPoll] at h

theorem lt_length_of_hasVoted {s : ContractState} {pid v : Nat} (hInv : Inv s)
    (h : hasVoted s pid v = true) : pid < s.polls.length := by
  simp only [hasVoted, decide_eq_true_eq] at h
  exact (hInv.2 (pid, v) h).1

/-! ### How one transaction changes a single encrypted tally -/

theorem tallyAt_congr {s s' : ContractState} {pid : Nat}
    (h : pollAt s' pid = pollAt s pid) (i : Nat) : tallyAt s' pid i = tallyAt s pid i := by
  unfold tallyAt
  rw [h]

theorem tallyAt_lt {s : ContractState} (hInv : Inv s) (pid i : Nat) :
    tallyAt s pid i < UINT32_LIMIT := by
  unfold tallyAt
  by_cases hlen : i < (pollAt s pid).encryptedCounts.length
  · by_cases hpid : pid < s.polls.length
    · have hw := hInv.1 (pollAt s pid) (pollAt_mem hpid)
      have hmem : (pollAt s pid).encryptedCounts.getD i 0 ∈ (pollAt s pid).encryptedCounts := by
        rw [List.getD_eq_getElem?_getD, List.getElem?_eq_getElem hlen]
        exact List.getElem_mem hlen
      exact hw.2.2.2.2.2 _ hmem
    · rw [pollAt_of_le (Nat.le_of_not_lt hpid)] at hlen
      simp [emptyPoll] at hlen
  · rw [List.getD_eq_getElem?_getD, List.getElem?_eq_none (Nat.le_of_not_lt hlen)]
    simp [UINT32_LIMIT]

theorem getD_replicate_zero (n j : Nat) : (List.replicate n (0 : Nat)).getD j 0 = 0 := by
  rcases Nat.lt_or_ge j n with h | h
  · simp [List.getD_eq_getElem?_getD, List.getElem?_replicate, h]
  · simp [List.getD_eq_getElem?_getD,
      List.getElem?_eq_none (l := List.replicate n (0 : Nat)) (by simpa using h)]

theorem tallyAt_vote_ok {s : ContractState} {p v c : Nat} {s' : ContractState}
    (hv : submitVote s p v c = .ok s') (i : Nat)
    (hi : i < (pollAt s p).encryptedCounts.length) :
    tallyAt s' p i =
      (tallyAt s p i + if c % UINT32_LIMIT = i then 1 else 0) % UINT32_LIMIT := by
  obtain ⟨hex, -, -, -, hs'⟩ := submitVote_ok hv
  have hlt : p < s.polls.length := lt_length_of_options_ne hex
  subst hs'
  unfold tallyAt
  rw [pollAt_setPoll_self _ (by simpa using hlt)]
  have hb := bumpTallies_getD (pollAt s p).encryptedCounts (c % UINT32_LIMIT) 0 i hi
  simpa using hb

theorem counts_length_vote_ok {s : ContractState} {p v c : Nat} {s' : ContractState}
    (hv : submitVote s p v c = .ok s') :
    (pollAt s' p).encryptedCounts.length = (pollAt s p).encryptedCounts.length := by
  obtain ⟨hex, -, -, -, hs'⟩ := submitVote_ok hv
  have hlt : p < s.polls.length := lt_length_of_options_ne hex
  subst hs'
  rw [pollAt_setPoll_self _ (by simpa using hlt)]
  simp [bumpTallies_length]

theorem tallyAt_applyOp {s : ContractState} (op : Op) (pid i : Nat) (hInv : Inv s)
    (hi : i < (pollAt (applyOp s op) pid).encryptedCounts.length) :
    tallyAt (applyOp s op) pid i =
      (tallyAt s pid i + voteContrib s op pid i) % UINT32_LIMIT := by
  have hmod : tallyAt s pid i % UINT32_LIMIT = tallyAt s pid i :=
    Nat.mod_eq_of_lt (tallyAt_lt hInv pid i)
  cases op with
  | create caller t d o st et =>
    cases hc : createPoll s caller t d o st et with
    | error e =>
      rw [applyOp_create_error hc]
      simp [voteContrib, hmod]
    | ok r =>
      obtain ⟨-, -, -, -, -, -, hr⟩ := createPoll_ok hc
      have happ : applyOp s (.create caller t d o st et) =
          { s with polls := s.polls ++ [newPollOf caller t d o st et] } := by
        simp [applyOp, hc, hr]
      rw [happ] at hi ⊢
      rcases Nat.lt_trichotomy pid s.polls.length with hlt | heq | hgt
      · rw [tallyAt_congr (pollAt_append_lt _ hlt)]
        simp [voteContrib, hmod]
      · subst heq
        unfold tallyAt
        rw [pollAt_append_self, pollAt_of_le (Nat.le_refl _)]
        simp [voteContrib, newPollOf, emptyPoll, getD_replicate_zero]
      · rw [tallyAt_congr (s := s)
          (show pollAt { s with polls := s.polls ++ [newPollOf caller t d o st et] } pid =
              pollAt s pid by
            rw [pollAt_append_gt _ hgt, pollAt_of_le (Nat.le_of_lt hgt)])]
        simp [voteContrib, hmod]
  | vote p v c =>
    cases hv : submitVote s p v c with
    | error e =>
      rw [applyOp_vote_error hv]
      simp [voteContrib, isOk, hv, hmod]
    | ok s' =>
      obtain ⟨hex, -, -, -, hs'⟩ := submitVote_ok hv
      have hlt : p < s.polls.length := lt_length_of_options_ne hex
      have happ : applyOp s (.vote p v c) = s' := by simp [applyOp, hv]
      by_cases hp : p = pid
      · subst hp
        have hi' : i < (pollAt s p).encryptedCounts.length := by
          rw [happ] at hi
          rw [← counts_length_vote_ok hv]
          exact hi
        rw [happ, tallyAt_vote_ok hv i hi']
        simp [voteContrib, isOk, hv]
      · have hpoll : pollAt (applyOp s (.vote p v c)) pid = pollAt s pid := by
          rw [happ, hs', pollAt_setPoll_ne _ _ hp]
          rfl
        rw [tallyAt_congr hpoll]
        simp [voteContrib, hp, hmod]
  | finalize p =>
    cases hf : finalizePoll s p with
    | error e =>
      rw [applyOp_finalize_error hf]
      simp [voteContrib, hmod]
    | ok s' =>
      obtain ⟨hex, -, -, hs'⟩ := finalizePoll_ok hf
      have hlt : p < s.polls.length := lt_length_of_options_ne hex
      have happ : applyOp s (.finalize p) = s' := by simp [applyOp, hf]
      rw [happ, hs']
      by_cases hp : p = pid
      · subst hp
        unfold tallyAt
        rw [pollAt_setPoll_self _ hlt]
        simp only [voteContrib, Nat.add_zero]
        exact (Nat.mod_eq_of_lt (tallyAt_lt hInv p i)).symm
      · rw [tallyAt_congr (pollAt_setPoll_ne _ _ hp)]
        simp [voteContrib, hmod]
  | publish p enc pr sg =>
    cases hpb : submitDecryptedResults s p enc pr sg with
    | error e =>
      rw [applyOp_publish_error hpb]
      simp [voteContrib, hmod]
    | ok s' =>
      obtain ⟨hex, -, -, -, -, -, hs'⟩ := submitDecryptedResults_ok hpb
      have hlt : p < s.polls.length := lt_length_of_options_ne hex
      have happ : applyOp s (.publish p enc pr sg) = s' := by simp [applyOp, hpb]
      rw [happ, hs']
      by_cases hp : p = pid
      · subst hp
        unfold tallyAt
        rw [pollAt_setPoll_self _ hlt]
        simp only [voteContrib, Nat.add_zero]
        exact (Nat.mod_eq_of_lt (tallyAt_lt hInv p i)).symm
      · rw [tallyAt_congr (pollAt_setPoll_ne _ _ hp)]
        simp [voteContrib, hmod]
  | advance dt =>
    have h0 : tallyAt (applyOp s (.advance dt)) pid i = tallyAt s pid i := rfl
    simp [h0, voteContrib, hmod]

/-! ### Accumulated tallies over a whole trace -/

theorem tallyAt_execTrace {s : ContractState} (ops : List Op) (pid i : Nat) (hInv : Inv s)
    (hi : i < (pollAt (execTrace s ops) pid).encryptedCounts.length) :
    tallyAt (execTrace s ops) pid i =
      (tallyAt s pid i + votesFor pid i s ops) % UINT32_LIMIT := by
  induction ops generalizing s with
  | nil =>
    simp only [execTrace, votesFor, Nat.add_zero]
    exact (Nat.mod_eq_of_lt (tallyAt_lt hInv pid i)).symm
  | cons op rest ih =>
    have hInv' := Inv_applyOp op hInv
    have hIH := @ih (applyOp s op) hInv' hi
    by_cases hpid : pid < (applyOp s op).polls.length
    · have hm := (meta_execTrace (applyOp s op) rest pid hpid).2.2.2.1
      have hlen' : i < (pollAt (applyOp s op) pid).encryptedCounts.length := by
        rw [← hm]
        exact hi
      have hstep := tallyAt_applyOp op pid i hInv hlen'
      show tallyAt (execTrace (applyOp s op) rest) pid i = _
      rw [hIH, hstep]
      show ((tallyAt s pid i + voteContrib s op pid i) % UINT32_LIMIT +
          votesFor pid i (applyOp s op) rest) % UINT32_LIMIT =
        (tallyAt s pid i + (voteContrib s op pid i +
          votesFor pid i (applyOp s op) rest)) % UINT32_LIMIT
      rw [Nat.mod_add_mod, Nat.add_assoc]
    · have hps : s.polls.length ≤ pid :=
        Nat.le_trans (length_applyOp_le s op) (Nat.le_of_not_lt hpid)
      have h0 : tallyAt s pid i = 0 := by
        unfold tallyAt
        rw [pollAt_of_le hps]
        rfl
      have h0' : tallyAt (applyOp s op) pid i = 0 := by
        unfold tallyAt
        rw [pollAt_of_le (Nat.le_of_not_lt hpid)]
        rfl
      have hc0 : voteContrib s op pid i = 0 := by
        cases op with
        | vote p v c =>
          have hcond : ¬(p = pid ∧ isOk (submitVote s p v c) = true ∧
              c % UINT32_LIMIT = i) := by
            rintro ⟨rfl, hok, -⟩
            cases hveq : submitVote s p v c with
            | error e => rw [hveq] at hok; simp [isOk] at hok
            | ok s2 =>
              have := lt_length_of_options_ne (submitVote_ok hveq).1
              omega
          simp only [voteContrib, if_neg hcond]
        | create caller t d o st et => rfl
        | finalize q => rfl
        | publish q enc pr sg => rfl
        | advance dt => rfl
      show tallyAt (execTrace (applyOp s op) rest) pid i = _
      rw [hIH, h0, h0']
      simp [votesFor, hc0]

theorem votesFor_le (pid i : Nat) (s : ContractState) (ops : List Op) :
    votesFor pid i s ops ≤ ops.length := by
  induction ops generalizing s with
  | nil => exact Nat.le_refl 0
  | cons op rest ih =>
    have h1 : voteContrib s op pid i ≤ 1 := by
      cases op <;> simp only [voteContrib] <;> try exact Nat.zero_le 1
      split <;> omega
    show voteContrib s op pid i + votesFor pid i (applyOp s op) rest ≤ rest.length + 1
    have := ih (applyOp s op)
    omega

/-! ### Summation helpers -/

theorem sum_map_add_split (l : List Nat) (f g : Nat → Nat) :
    (l.map (fun i => f i + g i)).sum = (l.map f).sum + (l.map g).sum := by
  induction l with
  | nil => rfl
  | cons x xs ih =>
    simp only [List.map_cons, List.sum_cons, ih]
    omega

theorem sum_map_zero (l : List Nat) : (l.map (fun _ => (0 : Nat))).sum = 0 := by
  induction l with
  | nil => rfl
  | cons x xs ih => simp [ih]

theorem sum_ite_eq_range (L x : Nat) :
    ((List.range L).map (fun i => if x = i then (1 : Nat) else 0)).sum =
      if x < L then 1 else 0 := by
  induction L with
  | zero => simp
  | succ n ih =>
    rw [List.range_succ, List.map_append, List.sum_append, ih]
    by_cases hx : x = n
    · subst hx
      simp [Nat.lt_irrefl, Nat.lt_succ_self]
    · by_cases hx2 : x < n
      · simp [hx, hx2, Nat.lt_succ_of_lt hx2]
      · have hx3 : ¬x < n + 1 := by omega
        simp [hx, hx2, hx3]

/-- The in-range vote count is the sum, over the option indices of the poll,
of the per-choice vote counts. -/
theorem countInRange_eq_sum (ops : List Op) :
    ∀ (s : ContractState) (pid : Nat),
    countInRange pid s ops =
      ((List.range ((pollAt (execTrace s ops) pid).options.length)).map
        (fun i => votesFor pid i s ops)).sum := by
  induction ops with
  | nil =>
    intro s pid
    simp [countInRange, votesFor, sum_map_zero]
  | cons op rest ih =>
    intro s pid
    have hIH := ih (applyOp s op) pid
    have hsplit : ∀ L : Nat,
        ((List.range L).map (fun i => votesFor pid i s (op :: rest))).sum =
          ((List.range L).map (fun i => voteContrib s op pid i)).sum +
            ((List.range L).map (fun i => votesFor pid i (applyOp s op) rest)).sum := by
      intro L
      rw [show (fun i => votesFor pid i s (op :: rest)) =
          (fun i => voteContrib s op pid i + votesFor pid i (applyOp s op) rest) from rfl]
      exact sum_map_add_split _ _ _
    show countInRange pid s (op :: rest) =
      ((List.range ((pollAt (execTrace (applyOp s op) rest) pid).options.length)).map
        (fun i => votesFor pid i s (op :: rest))).sum
    rw [hsplit, ← hIH]
    cases op with
    | vote p v c =>
      by_cases hcnd : p = pid ∧ isOk (submitVote s p v c) = true
      · obtain ⟨rfl, hok⟩ := hcnd
        cases hveq : submitVote s p v c with
        | error e => rw [hveq] at hok; simp [isOk] at hok
        | ok s2 =>
          have hlt : p < s.polls.length := lt_length_of_options_ne (submitVote_ok hveq).1
          have hopt :
              (pollAt (execTrace (applyOp s (.vote p v c)) rest) p).options.length =
                (pollAt s p).options.length := by
            have h1 := (meta_execTrace (applyOp s (.vote p v c)) rest p
              (Nat.lt_of_lt_of_le hlt (length_applyOp_le s _))).1
            have h2 := (meta_applyOp s (.vote p v c) p hlt).1
            rw [h1, h2]
          simp only [countInRange, voteContrib, hveq, isOk]
          rw [hopt]
          have hfun : (fun i => if True ∧ True ∧ c % UINT32_LIMIT = i then (1 : Nat) else 0) =
              (fun i => if c % UINT32_LIMIT = i then (1 : Nat) else 0) := by
            funext i
            simp
          rw [hfun, sum_ite_eq_range]
          simp
      · have hzero : ∀ i : Nat, voteContrib s (.vote p v c) pid i = 0 := by
          intro i
          have : ¬(p = pid ∧ isOk (submitVote s p v c) = true ∧ c % UINT32_LIMIT = i) := by
            rintro ⟨h1, h2, -⟩
            exact hcnd ⟨h1, h2⟩
          simp only [voteContrib, if_neg this]
        have hhead : ¬(p = pid ∧ isOk (submitVote s p v c) = true ∧
            c % UINT32_LIMIT < (pollAt s p).options.length) := by
          rintro ⟨h1, h2, -⟩
          exact hcnd ⟨h1, h2⟩
        simp only [countInRange, if_neg hhead]
        rw [show (fun i => voteContrib s (.vote p v c) pid i) =
            (fun _ => (0 : Nat)) from by funext i; rw [hzero i]]
        rw [sum_map_zero]
    | create caller t d o st et =>
      simp only [countInRange]
      rw [show (fun i => voteContrib s (.create caller t d o st et) pid i) =
          (fun _ => (0 : Nat)) from rfl, sum_map_zero]
    | finalize q =>
      simp only [countInRange]
      rw [show (fun i => voteContrib s (.finalize q) pid i) =
          (fun _ => (0 : Nat)) from rfl, sum_map_zero]
    | publish q enc pr sg =>
      simp only [countInRange]
      rw [show (fun i => voteContrib s (.publish q enc pr sg) pid i) =
          (fun _ => (0 : Nat)) from rfl, sum_map_zero]
    | advance dt =>
      simp only [countInRange]
      rw [show (fun i => voteContrib s (.advance dt) pid i) =
          (fun _ => (0 : Nat)) from rfl, sum_map_zero]

/-- Starting from deployment, the plaintext sum of a poll's encrypted tallies
equals the number of successful in-range votes, as long as fewer than `2^32`
transactions happened (so that no single `euint32` counter wraps). -/
theorem sum_counts_eq_countInRange (n0 : Nat) (ops : List Op) (pid : Nat)
    (hbound : ops.length < UINT32_LIMIT) :
    (pollAt (execTrace (initState n0) ops) pid).encryptedCounts.sum =
      countInRange pid (initState n0) ops := by
  have hInv0 : Inv (initState n0) := initState_inv n0
  have hInvE : Inv (execTrace (initState n0) ops) := Inv_execTrace ops hInv0
  have hlen : (pollAt (execTrace (initState n0) ops) pid).encryptedCounts.length =
      (pollAt (execTrace (initState n0) ops) pid).options.length := by
    by_cases hp : pid < (execTrace (initState n0) ops).polls.length
    · exact (hInvE.1 _ (pollAt_mem hp)).2.2.1
    · rw [pollAt_of_le (Nat.le_of_not_lt hp)]
      rfl
  have hval : ∀ i, i < (pollAt (execTrace (initState n0) ops) pid).encryptedCounts.length →
      (pollAt (execTrace (initState n0) ops) pid).encryptedCounts.getD i 0 =
        votesFor pid i (initState n0) ops := by
    intro i hi
    have h1 := tallyAt_execTrace ops pid i hInv0 hi
    have h2 : (pollAt (initState n0) pid).encryptedCounts.getD i 0 = 0 := by
      rw [pollAt_of_le (show (initState n0).polls.length ≤ pid by simp [initState])]
      rfl
    have h3 : votesFor pid i (initState n0) ops < UINT32_LIMIT :=
      Nat.lt_of_le_of_lt (votesFor_le pid i _ ops) hbound
    unfold tallyAt at h1
    rw [h2] at h1
    rw [h1, Nat.zero_add, Nat.mod_eq_of_lt h3]
  have hlist : (pollAt (execTrace (initState n0) ops) pid).encryptedCounts =
      (List.range ((pollAt (execTrace (initState n0) ops) pid).encryptedCounts.length)).map
        (fun i => votesFor pid i (initState n0) ops) := by
    apply List.ext_getElem
    · simp
    · intro i h1 h2
      have hgd : (pollAt (execTrace (initState n0) ops) pid).encryptedCounts[i] =
          (pollAt (execTrace (initState n0) ops) pid).encryptedCounts.getD i 0 := by
        rw [List.getD_eq_getElem?_getD, List.getElem?_eq_getElem h1]
        rfl
      rw [hgd, hval i h1]
      simp
  rw [hlist, countInRange_eq_sum ops (initState n0) pid, hlen]

/-! ### Facts about the range check of the decode loop -/

theorem firstExceeding_none_iff (l : List Nat) (k : Nat) :
    firstExceeding l k = none ↔ ∀ x ∈ l, x < UINT32_LIMIT := by
  induction l generalizing k with
  | nil => simp [firstExceeding]
  | cons a l ih =>
    simp only [firstExceeding]
    by_cases ha : UINT32_LIMIT ≤ a
    · rw [if_pos ha]
      constructor
      · intro h
        simp at h
      · intro h
        exact absurd (h a (List.mem_cons_self a l)) (by omega)
    · rw [if_neg ha, ih]
      constructor
      · intro h x hx
        rcases List.mem_cons.mp hx with rfl | hx
        · omega
        · exact h x hx
      · intro h x hx
        exact h x (List.mem_cons_of_mem a hx)

theorem firstExceeding_some_of_exceeding {l : List Nat} {k : Nat}
    (h : ∃ x ∈ l, UINT32_LIMIT ≤ x) : ∃ j, firstExceeding l k = some j := by
  cases hfe : firstExceeding l k with
  | none =>
    obtain ⟨x, hx, hxe⟩ := h
    have := (firstExceeding_none_iff l k).mp hfe x hx
    omega
  | some j => exact ⟨j, rfl⟩

theorem submitVote_ok_intro {s : ContractState} {pid v : Nat} (c : Nat)
    (hx : (pollAt s pid).options.length ≠ 0)
    (hst : (pollAt s pid).startTime ≤ s.now)
    (hend : s.now ≤ (pollAt s pid).endTime)
    (hnv : hasVoted s pid v = false) :
    ∃ s2, submitVote s pid v c = .ok s2 := by
  unfold submitVote
  rw [if_neg hx, if_neg (by omega : ¬s.now < (pollAt s pid).startTime),
    if_neg (by omega : ¬(pollAt s pid).endTime < s.now),
    if_neg (by simp [hnv] : ¬hasVoted s pid v = true)]
  exact ⟨_, rfl⟩

/-! ### The claims -/

/-- C5: `submitVote` checks its preconditions in this order: poll existence
(`PollNotFound`), then `current time >= startTime` (else `VotingNotStarted`),
then `current time <= endTime` (else `VotingFinished`), then that the voter
has not already voted (else `AlreadyVoted`); in every failing case the
encrypted tallies and all other state are unchanged. -/
theorem C5_submitVote_guard_order (s : ContractState) (pid v c : Nat) :
    (submitVote s pid v c = .error (.PollNotFound pid) ↔
      (pollAt s pid).options.length = 0) ∧
    ((pollAt s pid).options.length ≠ 0 →
      (submitVote s pid v c = .error (.VotingNotStarted pid) ↔
        s.now < (pollAt s pid).startTime)) ∧
    ((pollAt s pid).options.length ≠ 0 → (pollAt s pid).startTime ≤ s.now →
      (submitVote s pid v c = .error (.VotingFinished pid) ↔
        (pollAt s pid).endTime < s.now)) ∧
    ((pollAt s pid).options.length ≠ 0 → (pollAt s pid).startTime ≤ s.now →
      s.now ≤ (pollAt s pid).endTime →
      (submitVote s pid v c = .error (.AlreadyVoted pid v) ↔
        hasVoted s pid v = true)) ∧
    ((pollAt s pid).options.length ≠ 0 → (pollAt s pid).startTime ≤ s.now →
      s.now ≤ (pollAt s pid).endTime → hasVoted s pid v = false →
      submitVote s pid v c = .ok (setPoll
        { s with pollVotes := s.pollVotes ++ [(pid, v)] } pid
        { pollAt s pid with
          encryptedCounts :=
            bumpTallies (pollAt s pid).encryptedCounts (c % UINT32_LIMIT) 0 })) ∧
    (∀ e, submitVote s pid v c = .error e → applyOp s (.vote pid v c) = s) := by
  refine ⟨?_, ?_, ?_, ?_, ?_, fun e he => applyOp_vote_error he⟩
  · unfold submitVote
    by_cases h1 : (pollAt s pid).options.length = 0
    · rw [if_pos h1]
      simp [h1]
    · rw [if_neg h1]
      split_ifs <;> simp [h1]
  · intro hx
    unfold submitVote
    rw [if_neg hx]
    by_cases h2 : s.now < (pollAt s pid).startTime
    · rw [if_pos h2]
      simp [h2]
    · rw [if_neg h2]
      split_ifs <;> simp [h2]
  · intro hx hst
    unfold submitVote
    rw [if_neg hx, if_neg (by omega : ¬s.now < (pollAt s pid).startTime)]
    by_cases hend : (pollAt s pid).endTime < s.now
    · rw [if_pos hend]
      simp [hend]
    · rw [if_neg hend]
      split_ifs <;> simp [hend]
  · intro hx hst hend
    unfold submitVote
    rw [if_neg hx, if_neg (by omega : ¬s.now < (pollAt s pid).startTime),
      if_neg (by omega : ¬(pollAt s pid).endTime < s.now)]
    by_cases h4 : hasVoted s pid v = true
    · rw [if_pos h4]
      simp [h4]
    · rw [if_neg h4]
      simp [h4]
  · intro hx hst hend hnv
    unfold submitVote
    rw [if_neg hx, if_neg (by omega : ¬s.now < (pollAt s pid).startTime),
      if_neg (by omega : ¬(pollAt s pid).endTime < s.now),
      if_neg (by simp [hnv] : ¬hasVoted s pid v = true)]

/-- C7: the voting-open and finalized states never overlap: with the clock
never decreasing, in every reachable state in which a poll's `finalized` flag
is true, `submitVote` for that poll fails (with `VotingFinished`, since
finalization requires `now > endTime`), and the state is unchanged. -/
theorem C7_no_vote_on_finalized_poll {s : ContractState} (pid : Nat)
    (hR : Reachable s) (hfin : (pollAt s pid).finalized = true) :
    ∀ v c, submitVote s pid v c = .error (.VotingFinished pid) ∧
      applyOp s (.vote pid v c) = s := by
  intro v c
  have hInv := hR.inv
  have hlt : pid < s.polls.length := lt_length_of_finalized hfin
  have hw := hInv.1 _ (pollAt_mem hlt)
  have hend : (pollAt s pid).endTime < s.now := hw.2.2.2.2.1 hfin
  have hse : (pollAt s pid).startTime < (pollAt s pid).endTime := hw.2.2.2.1
  have h2 : 2 ≤ (pollAt s pid).options.length := hw.1
  have herr : submitVote s pid v c = .error (.VotingFinished pid) := by
    unfold submitVote
    rw [if_neg (by omega : ¬(pollAt s pid).options.length = 0),
      if_neg (by omega : ¬s.now < (pollAt s pid).startTime),
      if_pos hend]
  exact ⟨herr, applyOp_vote_error herr⟩

/-- C10: in every reachable state, a recorded vote refers to an existing poll:
if `hasVoted(pollId, voter)` returns true then a poll with that id was
created, i.e. `pollId < pollCount`. -/
theorem C10_vote_implies_poll_exists {s : ContractState} (pid v : Nat)
    (hR : Reachable s) (h : hasVoted s pid v = true) : pid < pollCount s :=
  lt_length_of_hasVoted hR.inv h

/-- C8: every successfully created poll satisfies `2 <= options.length <= 4`
and `encryptedCounts.length == options.length`, in every reachable state;
consequently `getPoll(pollId)` fails with `PollNotFound` exactly when no poll
with that id was ever created (ids are allocated sequentially, so exactly the
ids `< pollCount` exist, and existence is a non-empty options list). -/
theorem C8_created_polls_well_formed {s : ContractState} (pid : Nat)
    (hR : Reachable s) :
    (pid < pollCount s →
      2 ≤ (pollAt s pid).options.length ∧ (pollAt s pid).options.length ≤ 4 ∧
      (pollAt s pid).encryptedCounts.length = (pollAt s pid).options.length) ∧
    ((∃ x, getPoll s pid = .ok x) ↔ pid < pollCount s) ∧
    (getPoll s pid = .error (.PollNotFound pid) ↔ pollCount s ≤ pid) := by
  have hInv := hR.inv
  have hwf : pid < pollCount s →
      2 ≤ (pollAt s pid).options.length ∧ (pollAt s pid).options.length ≤ 4 ∧
      (pollAt s pid).encryptedCounts.length = (pollAt s pid).options.length := by
    intro hlt
    have hw := hInv.1 _ (pollAt_mem hlt)
    exact ⟨hw.1, hw.2.1, hw.2.2.1⟩
  refine ⟨hwf, ?_, ?_⟩
  · constructor
    · rintro ⟨x, hx⟩
      by_cases h0 : (pollAt s pid).options.length = 0
      · simp [getPoll, h0] at hx
      · exact lt_length_of_options_ne h0
    · intro hlt
      have h0 : (pollAt s pid).options.length ≠ 0 := by
        have := (hwf hlt).1
        omega
      unfold getPoll
      rw [if_neg h0]
      exact ⟨_, rfl⟩
  · constructor
    · intro hx
      by_contra hlt
      have h0 : (pollAt s pid).options.length ≠ 0 := by
        have := (hwf (Nat.lt_of_not_le hlt)).1
        omega
      unfold getPoll at hx
      rw [if_neg h0] at hx
      simp at hx
    · intro hge
      have h0 : (pollAt s pid).options.length = 0 := by
        rw [pollAt_of_le hge]
        rfl
      unfold getPoll
      rw [if_pos h0]

/-- C9: `createPoll` does not require `startTime` to be in the future: with a
non-empty title, 2 to 4 non-empty options, `endTime > startTime` and
`endTime` strictly after the current time, the call succeeds even when
`startTime` is strictly before the current time, and the new poll is
immediately open for voting. -/
theorem C9_past_startTime_allowed (s : ContractState) (caller : Nat)
    (t d : String) (opts : List String) (st et v c : Nat)
    (ht : t ≠ "") (hlen2 : 2 ≤ opts.length) (hlen4 : opts.length ≤ 4)
    (hne : ∀ o ∈ opts, o ≠ "") (hse : st < et) (hnow : s.now < et)
    (hpast : st < s.now)
    (hnv : hasVoted s (pollCount s) v = false) :
    ∃ s1, createPoll s caller t d opts st et = .ok (s1, pollCount s) ∧
      ∃ s2, submitVote s1 (pollCount s) v c = .ok s2 := by
  have hcreate : createPoll s caller t d opts st et =
      .ok ({ s with polls := s.polls ++ [newPollOf caller t d opts st et] },
        s.polls.length) := by
    unfold createPoll
    rw [if_neg ht, if_neg (by omega : ¬(opts.length < 2 ∨ 4 < opts.length)),
      if_neg (by omega : ¬(et ≤ st ∨ et ≤ s.now)),
      if_neg (by
        simp only [List.any_eq_true, beq_iff_eq, not_exists]
        rintro x ⟨hx, hx'⟩
        exact hne x hx hx')]
  refine ⟨_, hcreate, ?_⟩
  have hpa : pollAt { s with polls := s.polls ++ [newPollOf caller t d opts st et] }
      (pollCount s) = newPollOf caller t d opts st et :=
    pollAt_append_self s (newPollOf caller t d opts st et)
  apply submitVote_ok_intro
  · rw [hpa]
    simp only [newPollOf]
    omega
  · rw [hpa]
    simp only [newPollOf]
    show st ≤ s.now
    omega
  · rw [hpa]
    simp only [newPollOf]
    show s.now ≤ et
    omega
  · simp only [hasVoted, decide_eq_true_eq] at hnv ⊢
    simpa using hnv

/-- C4: `finalizePoll` on an existing poll fails with `PollStillRunning`
exactly when `now <= endTime`; one call after `endTime` succeeds and sets
`finalized` to true; once finalized, the flag persists and every later call
fails with `PollAlreadyFinalized` with no state change. -/
theorem C4_finalize_exactly_once {s : ContractState} (pid : Nat)
    (hR : Reachable s) (hex : (pollAt s pid).options.length ≠ 0) :
    (finalizePoll s pid = .error (.PollStillRunning pid) ↔
      s.now ≤ (pollAt s pid).endTime) ∧
    ((pollAt s pid).endTime < s.now → (pollAt s pid).finalized = false →
      finalizePoll s pid = .ok (setPoll s pid { pollAt s pid with finalized := true }) ∧
      (pollAt (applyOp s (.finalize pid)) pid).finalized = true) ∧
    ((pollAt s pid).finalized = true →
      (∀ ops, (pollAt (execTrace s ops) pid).finalized = true) ∧
      finalizePoll s pid = .error (.PollAlreadyFinalized pid) ∧
      applyOp s (.finalize pid) = s) := by
  refine ⟨?_, ?_, ?_⟩
  · unfold finalizePoll
    rw [if_neg hex]
    by_cases hrun : s.now ≤ (pollAt s pid).endTime
    · rw [if_pos hrun]
      simp [hrun]
    · rw [if_neg hrun]
      split_ifs <;> simp [hrun]
  · intro hend hnf
    have hok : finalizePoll s pid =
        .ok (setPoll s pid { pollAt s pid with finalized := true }) := by
      unfold finalizePoll
      rw [if_neg hex, if_neg (by omega : ¬s.now ≤ (pollAt s pid).endTime),
        if_neg (by simp [hnf] : ¬(pollAt s pid).finalized = true)]
    refine ⟨hok, ?_⟩
    have happ : applyOp s (.finalize pid) =
        setPoll s pid { pollAt s pid with finalized := true } := by
      simp [applyOp, hok]
    rw [happ, pollAt_setPoll_self _ (lt_length_of_options_ne hex)]
  · intro hfin
    have hInv := hR.inv
    have hlt : pid < s.polls.length := lt_length_of_finalized hfin
    have hend : (pollAt s pid).endTime < s.now :=
      (hInv.1 _ (pollAt_mem hlt)).2.2.2.2.1 hfin
    have herr : finalizePoll s pid = .error (.PollAlreadyFinalized pid) := by
      unfold finalizePoll
      rw [if_neg hex, if_neg (by omega : ¬s.now ≤ (pollAt s pid).endTime),
        if_pos hfin]
    exact ⟨fun ops => (meta_execTrace s ops pid hlt).2.2.2.2 hfin, herr,
      applyOp_finalize_error herr⟩

/-- C1 as stated is false: after voter 5 successfully voted on poll 0, a later
`submitVote` by the same voter, issued after `endTime`, fails with
`VotingFinished`, not with `AlreadyVoted` (the time-window check precedes the
already-voted check). -/
theorem C1_counterexample :
    hasVoted (execTrace (initState 0) opsVoted) 0 5 = true ∧
    hasVoted (execTrace (initState 0) opsLate) 0 5 = true ∧
    submitVote (execTrace (initState 0) opsLate) 0 5 0 =
      .error (.VotingFinished 0) ∧
    BallotError.VotingFinished 0 ≠ BallotError.AlreadyVoted 0 5 := by
  decide

/-- C1 (amended): once `hasVoted(pollId, voter)` holds, it holds in every
later state, and every later `submitVote` for the same poll by the same voter
fails — with `AlreadyVoted` while `now <= endTime`, with `VotingFinished`
after `endTime` — leaving the tallies and all other state unchanged; hence at
most one `submitVote` per `(pollId, voter)` ever succeeds. -/
theorem C1_at_most_one_vote {s : ContractState} (pid v : Nat)
    (hR : Reachable s) (hv : hasVoted s pid v = true) :
    ∀ ops c,
      hasVoted (execTrace s ops) pid v = true ∧
      submitVote (execTrace s ops) pid v c =
        .error (if (execTrace s ops).now ≤ (pollAt (execTrace s ops) pid).endTime
          then .AlreadyVoted pid v else .VotingFinished pid) ∧
      applyOp (execTrace s ops) (.vote pid v c) = execTrace s ops := by
  have key : ∀ t : ContractState, Reachable t → hasVoted t pid v = true → ∀ c,
      submitVote t pid v c =
        .error (if t.now ≤ (pollAt t pid).endTime then .AlreadyVoted pid v
          else .VotingFinished pid) := by
    intro t hRt hvt c
    have hInv := hRt.inv
    have hlt := lt_length_of_hasVoted hInv hvt
    have hmem : (pid, v) ∈ t.pollVotes := by simpa [hasVoted] using hvt
    have hstart : (pollAt t pid).startTime ≤ t.now := (hInv.2 (pid, v) hmem).2
    have hw := hInv.1 _ (pollAt_mem hlt)
    have h2 : 2 ≤ (pollAt t pid).options.length := hw.1
    unfold submitVote
    rw [if_neg (by omega : ¬(pollAt t pid).options.length = 0),
      if_neg (by omega : ¬t.now < (pollAt t pid).startTime)]
    by_cases hend : (pollAt t pid).endTime < t.now
    · rw [if_pos hend, if_neg (by omega : ¬t.now ≤ (pollAt t pid).endTime)]
    · rw [if_neg hend, if_pos hvt, if_pos (by omega : t.now ≤ (pollAt t pid).endTime)]
  intro ops c
  have hv' := hasVoted_execTrace s ops pid v hv
  have herr := key _ (hR.execTrace ops) hv' c
  exact ⟨hv', herr, applyOp_vote_error herr⟩

/-- C6 as stated is false: on an input whose options list contains an empty
option and whose schedule is invalid (`endTime <= startTime`), `createPoll`
fails with `InvalidSchedule`, not with `EmptyOption`: the schedule check runs
before the per-option emptiness check. -/
theorem C6_counterexample :
    ("" ∈ ["A", ""]) ∧ (5 : Nat) ≤ 10 ∧
    createPoll (initState 0) 7 "T" "" ["A", ""] 10 5 = .error .InvalidSchedule ∧
    createPoll (initState 0) 7 "T" "" ["A", ""] 10 5 ≠ .error .EmptyOption := by
  decide

/-- C6 (amended): `createPoll` applies its checks in the order `EmptyTitle`,
`InvalidOptionCount`, `InvalidSchedule`, `EmptyOption`; for an input with both
an empty option and an invalid schedule the call fails with `InvalidSchedule`.
Every failure leaves the observable state unchanged (the contract writes
before the option loop, but the revert discards those writes), and a valid
input appends exactly the new poll. -/
theorem C6_createPoll_guard_order (s : ContractState) (caller : Nat) (t d : String)
    (opts : List String) (st et : Nat) :
    (createPoll s caller t d opts st et = .error .EmptyTitle ↔ t = "") ∧
    (t ≠ "" → (createPoll s caller t d opts st et = .error .InvalidOptionCount ↔
      (opts.length < 2 ∨ 4 < opts.length))) ∧
    (t ≠ "" → 2 ≤ opts.length → opts.length ≤ 4 →
      (createPoll s caller t d opts st et = .error .InvalidSchedule ↔
        (et ≤ st ∨ et ≤ s.now))) ∧
    (t ≠ "" → 2 ≤ opts.length → opts.length ≤ 4 → st < et → s.now < et →
      (createPoll s caller t d opts st et = .error .EmptyOption ↔
        ∃ o ∈ opts, o = "")) ∧
    (t ≠ "" → 2 ≤ opts.length → opts.length ≤ 4 → st < et → s.now < et →
      (∀ o ∈ opts, o ≠ "") →
      createPoll s caller t d opts st et =
        .ok ({ s with polls := s.polls ++ [newPollOf caller t d opts st et] },
          pollCount s)) ∧
    (∀ e, createPoll s caller t d opts st et = .error e →
      applyOp s (.create caller t d opts st et) = s) := by
  refine ⟨?_, ?_, ?_, ?_, ?_, fun e he => applyOp_create_error he⟩
  · unfold createPoll
    by_cases h1 : t = ""
    · rw [if_pos h1]
      simp [h1]
    · rw [if_neg h1]
      split_ifs <;> simp [h1]
  · intro ht
    unfold createPoll
    rw [if_neg ht]
    by_cases h2 : opts.length < 2 ∨ 4 < opts.length
    · rw [if_pos h2]
      simp [h2]
    · rw [if_neg h2]
      split_ifs <;> simp [h2]
  · intro ht hl2 hl4
    unfold createPoll
    rw [if_neg ht, if_neg (by omega : ¬(opts.length < 2 ∨ 4 < opts.length))]
    by_cases h3 : et ≤ st ∨ et ≤ s.now
    · rw [if_pos h3]
      simp [h3]
    · rw [if_neg h3]
      split_ifs <;> simp [h3]
  · intro ht hl2 hl4 hst hnw
    unfold createPoll
    rw [if_neg ht, if_neg (by omega : ¬(opts.length < 2 ∨ 4 < opts.length)),
      if_neg (by omega : ¬(et ≤ st ∨ et ≤ s.now))]
    by_cases h4 : opts.any (fun o => o == "") = true
    · rw [if_pos h4]
      simp only [List.any_eq_true, beq_iff_eq] at h4
      simp [h4]
    · rw [if_neg h4]
      simp only [List.any_eq_true, beq_iff_eq] at h4
      simp [h4]
  · intro ht hl2 hl4 hst hnw hne
    unfold createPoll
    rw [if_neg ht, if_neg (by omega : ¬(opts.length < 2 ∨ 4 < opts.length)),
      if_neg (by omega : ¬(et ≤ st ∨ et ≤ s.now)),
      if_neg (by
        simp only [List.any_eq_true, beq_iff_eq, not_exists]
        rintro x ⟨hx, hx'⟩
        exact hne x hx hx')]
    rfl

/-- C2: once the lifecycle guards and the external proof check of
`submitDecryptedResults` pass, the call fails with `InvalidResultsLength`
exactly when `encodedCounts.length != options.length * 32`; otherwise it
parses `encodedCounts` as `options.length` consecutive 32-byte big-endian
words in option order, fails with `CountExceedsLimit` if some decoded value
exceeds `2^32 - 1`, and on success stores the decoded values as
`decryptedCounts`, stores `encodedCounts` and the proof verbatim, and sets
`resultsSubmitted` to true. -/
theorem C2_submitResults_decode {s : ContractState} (pid : Nat) (e pr : List Nat)
    (hR : Reachable s)
    (hex : (pollAt s pid).options.length ≠ 0)
    (hfin : (pollAt s pid).finalized = true)
    (hnr : (pollAt s pid).resultsSubmitted = false) :
    (submitDecryptedResults s pid e pr true = .error (.InvalidResultsLength pid) ↔
      e.length ≠ (pollAt s pid).options.length * 32) ∧
    (e.length = (pollAt s pid).options.length * 32 →
      ((∃ x ∈ decodeClearValues e (pollAt s pid).options.length, UINT32_LIMIT ≤ x) →
        ∃ j, submitDecryptedResults s pid e pr true =
          .error (.CountExceedsLimit pid j)) ∧
      ((∀ x ∈ decodeClearValues e (pollAt s pid).options.length, x < UINT32_LIMIT) →
        submitDecryptedResults s pid e pr true = .ok (setPoll s pid
          { pollAt s pid with
            decryptedCounts := decodeClearValues e (pollAt s pid).options.length
            encodedClearResults := e
            decryptionProof := pr
            resultsSubmitted := true }))) := by
  have hInv := hR.inv
  have hlen : (pollAt s pid).encryptedCounts.length = (pollAt s pid).options.length :=
    (hInv.1 _ (pollAt_mem (lt_length_of_options_ne hex))).2.2.1
  have hred : submitDecryptedResults s pid e pr true =
      (if e.length ≠ (pollAt s pid).options.length * 32 then
        .error (.InvalidResultsLength pid)
      else
        match firstExceeding (decodeClearValues e (pollAt s pid).options.length) 0 with
        | some i => .error (.CountExceedsLimit pid i)
        | none =>
            .ok (setPoll s pid
              { pollAt s pid with
                decryptedCounts := decodeClearValues e (pollAt s pid).options.length
                encodedClearResults := e
                decryptionProof := pr
                resultsSubmitted := true })) := by
    unfold submitDecryptedResults
    rw [if_neg hex, if_neg (by simp [hfin] : ¬(pollAt s pid).finalized = false),
      if_neg (by simp [hnr] : ¬(pollAt s pid).resultsSubmitted = true),
      if_neg (by simp : ¬(true : Bool) = false), hlen]
  constructor
  · rw [hred]
    by_cases hL : e.length ≠ (pollAt s pid).options.length * 32
    · rw [if_pos hL]
      simp [hL]
    · rw [if_neg hL]
      have hL' : e.length = (pollAt s pid).options.length * 32 := by omega
      cases hfe : firstExceeding (decodeClearValues e (pollAt s pid).options.length) 0 with
      | some j => simp [hL']
      | none => simp [hL']
  · intro hL
    have hnL : ¬e.length ≠ (pollAt s pid).options.length * 32 := by omega
    constructor
    · intro hexc
      obtain ⟨j, hj⟩ := firstExceeding_some_of_exceeding hexc
      refine ⟨j, ?_⟩
      rw [hred, if_neg hnL, hj]
    · intro hall
      have hfe : firstExceeding
          (decodeClearValues e (pollAt s pid).options.length) 0 = none :=
        (firstExceeding_none_iff _ _).mpr hall
      rw [hred, if_neg hnL, hfe]

/-- C3 as stated is false: voter 5 successfully votes on the two-option poll 0
with the out-of-range encrypted choice 5, so no per-option tally is
incremented; after finalization a correct decryption (`decryptedCounts`
matches the plaintext tallies) is published, yet the sum of the stored
`decryptedCounts` is 0 while 1 distinct voter voted successfully. -/
theorem C3_counterexample :
    countVotes 0 (initState 0) opsBadVote = 1 ∧
    hasVoted (execTrace (initState 0) opsBadVote) 0 5 = true ∧
    (pollAt (execTrace (initState 0) opsBadVote) 0).resultsSubmitted = true ∧
    (pollAt (execTrace (initState 0) opsBadVote) 0).decryptedCounts =
      (pollAt (execTrace (initState 0) opsBadVote) 0).encryptedCounts ∧
    (pollAt (execTrace (initState 0) opsBadVote) 0).decryptedCounts.sum = 0 := by
  decide

/-- C3 (amended): after a correct decryption is published for a poll
(`decryptedCounts` equal to the plaintexts of the encrypted tallies), the sum
of the stored `decryptedCounts` equals the number of successful `submitVote`
transactions for that poll whose encrypted choice was a valid option index —
each distinct voter contributes at most one such transaction — provided fewer
than `2^32` transactions occurred, so no 32-bit tally wraps. -/
theorem C3_sum_decrypted_counts (n0 : Nat) (ops : List Op) (pid : Nat)
    (hbound : ops.length < UINT32_LIMIT)
    (_hpub : (pollAt (execTrace (initState n0) ops) pid).resultsSubmitted = true)
    (hcorrect : (pollAt (execTrace (initState n0) ops) pid).decryptedCounts =
      (pollAt (execTrace (initState n0) ops) pid).encryptedCounts) :
    (pollAt (execTrace (initState n0) ops) pid).decryptedCounts.sum =
      countInRange pid (initState n0) ops := by
  rw [hcorrect]
  exact sum_counts_eq_countInRange n0 ops pid hbound

/-! ### Concrete instantiations of the claim theorems -/

theorem C1_at_most_one_vote_witness :
    submitVote (execTrace (execTrace (initState 0) opsLate) []) 0 5 0 =
      .error (.VotingFinished 0) ∧
    applyOp (execTrace (execTrace (initState 0) opsLate) []) (.vote 0 5 0) =
      execTrace (execTrace (initState 0) opsLate) [] := by
  have h := C1_at_most_one_vote 0 5 ⟨0, opsLate, rfl⟩ (by decide) [] 0
  exact ⟨h.2.1.trans (by decide), h.2.2⟩

theorem C2_submitResults_decode_witness :
    (∃ s2, submitDecryptedResults (execTrace (initState 0) opsFinal) 0
      encOneZero [9] true = .ok s2) ∧
    submitDecryptedResults (execTrace (initState 0) opsFinal) 0 [1, 2, 3] [9] true =
      .error (.InvalidResultsLength 0) := by
  have h := C2_submitResults_decode 0 encOneZero [9] ⟨0, opsFinal, rfl⟩
    (by decide) (by decide) (by decide)
  have h2 := C2_submitResults_decode 0 [1, 2, 3] [9] ⟨0, opsFinal, rfl⟩
    (by decide) (by decide) (by decide)
  constructor
  · exact ⟨_, (h.2 (by decide)).2 (by decide)⟩
  · exact h2.1.mpr (by decide)

theorem C3_sum_decrypted_counts_witness :
    (pollAt (execTrace (initState 0) opsPub) 0).decryptedCounts.sum =
      countInRange 0 (initState 0) opsPub :=
  C3_sum_decrypted_counts 0 opsPub 0 (by decide) (by decide) (by decide)

theorem C4_finalize_exactly_once_witness :
    finalizePoll (execTrace (initState 0) opsVoted) 0 =
      .error (.PollStillRunning 0) ∧
    (pollAt (applyOp (execTrace (initState 0) opsLate) (.finalize 0)) 0).finalized =
      true ∧
    finalizePoll (execTrace (initState 0) opsFinal) 0 =
      .error (.PollAlreadyFinalized 0) := by
  have h1 := C4_finalize_exactly_once 0 ⟨0, opsVoted, rfl⟩ (by decide)
  have h2 := C4_finalize_exactly_once 0 ⟨0, opsLate, rfl⟩ (by decide)
  have h3 := C4_finalize_exactly_once 0 ⟨0, opsFinal, rfl⟩ (by decide)
  exact ⟨h1.1.mpr (by decide), (h2.2.1 (by decide) (by decide)).2,
    (h3.2.2 (by decide)).2.1⟩

theorem C5_submitVote_guard_order_witness :
    submitVote (execTrace (initState 0) opsVoted) 0 5 1 =
      .error (.AlreadyVoted 0 5) ∧
    (∃ s2, submitVote (execTrace (initState 0) opsVoted) 0 6 1 = .ok s2) := by
  have h1 := C5_submitVote_guard_order (execTrace (initState 0) opsVoted) 0 5 1
  have h2 := C5_submitVote_guard_order (execTrace (initState 0) opsVoted) 0 6 1
  constructor
  · exact (h1.2.2.2.1 (by decide) (by decide) (by decide)).mpr (by decide)
  · exact ⟨_, h2.2.2.2.2.1 (by decide) (by decide) (by decide) (by decide)⟩

theorem C6_createPoll_guard_order_witness :
    createPoll (initState 0) 7 "T" "" ["A", "B"] 10 5 = .error .InvalidSchedule ∧
    (∃ r, createPoll (initState 0) 7 "T" "" ["A", "B"] 10 20 = .ok r) := by
  have h1 := C6_createPoll_guard_order (initState 0) 7 "T" "" ["A", "B"] 10 5
  have h2 := C6_createPoll_guard_order (initState 0) 7 "T" "" ["A", "B"] 10 20
  constructor
  · exact (h1.2.2.1 (by decide) (by decide) (by decide)).mpr (by decide)
  · exact ⟨_, h2.2.2.2.2.1 (by decide) (by decide) (by decide) (by decide)
      (by decide) (by decide)⟩

theorem C7_no_vote_on_finalized_poll_witness :
    submitVote (execTrace (initState 0) opsFinal) 0 9 0 =
      .error (.VotingFinished 0) ∧
    applyOp (execTrace (initState 0) opsFinal) (.vote 0 9 0) =
      execTrace (initState 0) opsFinal :=
  C7_no_vote_on_finalized_poll 0 ⟨0, opsFinal, rfl⟩ (by decide) 9 0

theorem C8_created_polls_well_formed_witness :
    (2 ≤ (pollAt (execTrace (initState 0) opsCreated) 0).options.length ∧
      (pollAt (execTrace (initState 0) opsCreated) 0).options.length ≤ 4 ∧
      (pollAt (execTrace (initState 0) opsCreated) 0).encryptedCounts.length =
        (pollAt (execTrace (initState 0) opsCreated) 0).options.length) ∧
    getPoll (execTrace (initState 0) opsCreated) 1 = .error (.PollNotFound 1) := by
  have h0 := C8_created_polls_well_formed 0 ⟨0, opsCreated, rfl⟩
  have h1 := C8_created_polls_well_formed 1 ⟨0, opsCreated, rfl⟩
  exact ⟨h0.1 (by decide), h1.2.2.mpr (by decide)⟩

theorem C9_past_startTime_allowed_witness :
    ∃ s1, createPoll (initState 15) 7 "T" "" ["A", "B"] 10 20 =
      .ok (s1, pollCount (initState 15)) ∧
      ∃ s2, submitVote s1 (pollCount (initState 15)) 4 0 = .ok s2 :=
  C9_past_startTime_allowed (initState 15) 7 "T" "" ["A", "B"] 10 20 4 0
    (by decide) (by decide) (by decide) (by decide) (by decide) (by decide)
    (by decide) (by decide)

theorem C10_vote_implies_poll_exists_witness :
    0 < pollCount (execTrace (initState 0) opsVoted) :=
  C10_vote_implies_poll_exists 0 5 ⟨0, opsVoted, rfl⟩ (by decide)

end BallotGuard
